import Mathlib

/-!
# Verification of the histogram kernels in `session-1/exercises/kernels.ipynb`

This file gives a shallow embedding of the two histogram routines of the
notebook (`cpu_histogram` and `cuda_histogram`) and of the start/stride work
partition used by the CUDA kernels, and proves the specification's claims
about them.

Modelling conventions:

* Sample values and the range bounds (`np.float32` in the notebook) are
  modelled as exact rationals `ℚ`; bin counters (`np.int32`) as unbounded
  integers `ℤ`.  The python expression `np.int32(r)` converts a float to an
  integer by *truncation toward zero*, which `int32trunc` models exactly
  (ignoring 32-bit wraparound, irrelevant to the claims considered here).
* In-place mutation of the numpy array `histogram_out` is modelled by
  threading the list of counters through a fold; `histogram_out[b] += 1`
  becomes `List.set b (getD b + 1)`.
* A CUDA thread with `start = cuda.grid(1)` and `stride = cuda.gridsize(1)`
  processes the indices `range(start, len(x), stride)`; with `gridsize`
  threads the starts are exactly `0, …, gridsize - 1`.  Because every bin
  update is an atomic fetch-and-add, every interleaving of the concurrent
  increments yields the same final counters, so the concurrent execution is
  modelled as the threads' increment sequences applied in some order; order
  independence is proved below (`bumpBin_comm`, `List.Perm.foldl_eq`).
-/

namespace Kernels

/-- `np.int32 r` for a real (here: rational) `r`: truncation toward zero.
Note this is *not* the floor on negative inputs: `int32trunc (-1/2) = 0`. -/
def int32trunc (q : ℚ) : ℤ := if 0 ≤ q then ⌊q⌋ else ⌈q⌉

/-- The notebook's bin computation `np.int32((element - xmin) / bin_width)`. -/
def binNumber (xmin bin_width v : ℚ) : ℤ := int32trunc ((v - xmin) / bin_width)

/-- The guarded increment in the loop body of both histogram routines:
`if bin_number >= 0 and bin_number < histogram_out.shape[0]:
   histogram_out[bin_number] += 1`
(on the GPU the `+= 1` is `cuda.atomic.add(histogram_out, bin_number, 1)`;
both perform the same state update).  `nbins` is the length of the output
array, which is unchanged by the updates. -/
def bumpBin (nbins : ℕ) (h : List ℤ) (bn : ℤ) : List ℤ :=
  if 0 ≤ bn ∧ bn < (nbins : ℤ) then h.set bn.toNat (h.getD bn.toNat 0 + 1) else h

/-- Processing of one sample `element`: compute its bin and do the guarded
increment. -/
def histStep (xmin bin_width : ℚ) (nbins : ℕ) (h : List ℤ) (element : ℚ) :
    List ℤ :=
  bumpBin nbins h (binNumber xmin bin_width element)

/-- The notebook's `cpu_histogram(x, xmin, xmax, histogram_out)`:
`nbins = histogram_out.shape[0]`, `bin_width = (xmax - xmin) / nbins`, then a
sequential loop over `x` performing the guarded increment for each element.
The returned list is the final state of the mutated `histogram_out`. -/
def cpu_histogram (x : List ℚ) (xmin xmax : ℚ) (histogram_out : List ℤ) :
    List ℤ :=
  let nbins := histogram_out.length
  let bin_width := (xmax - xmin) / (nbins : ℚ)
  x.foldl (histStep xmin bin_width nbins) histogram_out

/-- Python's `range(start, stop, stride)` for naturals with a positive
stride: the indices `start, start + stride, start + 2*stride, …` that are
below `stop`, in increasing order. -/
def pyRange (start stop stride : ℕ) : List ℕ :=
  (List.range stop).filter (fun i => decide (start ≤ i ∧ (i - start) % stride = 0))

/-- One CUDA thread of `cuda_histogram`: the thread with grid index `start`
(and grid size `stride`) walks `range(start, x.shape[0], stride)` and performs
the guarded atomic increment for each visited sample. -/
def cudaThread (x : List ℚ) (xmin bin_width : ℚ) (nbins : ℕ)
    (start stride : ℕ) (h : List ℤ) : List ℤ :=
  (pyRange start x.length stride).foldl
    (fun hh i => histStep xmin bin_width nbins hh (x.getD i 0)) h

/-- The notebook's `cuda_histogram(x, xmin, xmax, histogram_out)` launched
with `gridsize` total threads (threads `0, …, gridsize - 1`).  Each bin update
is an atomic add, so the concurrent increments commute and the result of the
launch equals the threads' updates applied in sequence (order irrelevance is
proved via `bumpBin_comm`). -/
def cuda_histogram (x : List ℚ) (xmin xmax : ℚ) (gridsize : ℕ)
    (histogram_out : List ℤ) : List ℤ :=
  let nbins := histogram_out.length
  let bin_width := (xmax - xmin) / (nbins : ℚ)
  (List.range gridsize).foldl
    (fun h k => cudaThread x xmin bin_width nbins k gridsize h) histogram_out

/-- `cpu_histogram` acting on the whole visible state `(x, histogram_out)`:
the loop body reads `x` and writes only `histogram_out`, as in the source. -/
def cpu_histogram_state (xmin xmax : ℚ) (s : List ℚ × List ℤ) :
    List ℚ × List ℤ :=
  let nbins := s.2.length
  let bin_width := (xmax - xmin) / (nbins : ℚ)
  s.1.foldl (fun st element => (st.1, histStep xmin bin_width nbins st.2 element)) s

/-- `cuda_histogram` acting on the whole visible state `(x, histogram_out)`:
every thread reads `x` (via its strided index list) and writes only
`histogram_out`. -/
def cuda_histogram_state (xmin xmax : ℚ) (gridsize : ℕ)
    (s : List ℚ × List ℤ) : List ℚ × List ℤ :=
  let nbins := s.2.length
  let bin_width := (xmax - xmin) / (nbins : ℚ)
  (List.range gridsize).foldl
    (fun st k =>
      (pyRange k st.1.length gridsize).foldl
        (fun st2 i => (st2.1, histStep xmin bin_width nbins st2.2 (st2.1.getD i 0))) st)
    s

/-! ### Truncation toward zero -/

lemma int32trunc_nonneg_iff (q : ℚ) : 0 ≤ int32trunc q ↔ -1 < q := by
  unfold int32trunc
  split
  next h =>
    have h1 : (0 : ℤ) ≤ ⌊q⌋ := Int.le_floor.mpr (by exact_mod_cast h)
    constructor
    · intro _; linarith
    · intro _; exact h1
  next h =>
    push_neg at h
    constructor
    · intro h0
      by_contra hle
      push_neg at hle
      have hc : ⌈q⌉ ≤ -1 := Int.ceil_le.mpr (by push_cast; linarith)
      omega
    · intro h1
      by_contra h0
      push_neg at h0
      have hc : ⌈q⌉ ≤ -1 := by omega
      have := Int.ceil_le.mp hc
      push_cast at this
      linarith

lemma int32trunc_lt_iff (q : ℚ) (n : ℕ) (hn : 0 < n) :
    int32trunc q < (n : ℤ) ↔ q < (n : ℚ) := by
  have hn0 : (0 : ℚ) < (n : ℚ) := by exact_mod_cast hn
  unfold int32trunc
  split
  next h =>
    rw [Int.floor_lt]
    norm_cast
  next h =>
    push_neg at h
    constructor
    · intro _; linarith
    · intro _
      have hc : ⌈q⌉ ≤ 0 := Int.ceil_le.mpr (by push_cast; linarith)
      have : (0 : ℤ) < (n : ℤ) := by exact_mod_cast hn
      omega

/-- A sample is counted (its truncated bin index passes the guard) iff it lies
in the open-below window `(xmin - bin_width, xmax)`.  In particular the values
of `(xmin - bin_width, xmin)`, whose floor index would be `-1`, are counted in
bin 0 by the truncation. -/
lemma binNumber_guard_iff (xmin xmax : ℚ) (n : ℕ) (hn : 0 < n)
    (hlh : xmin < xmax) (v : ℚ) :
    (0 ≤ binNumber xmin ((xmax - xmin) / (n : ℚ)) v ∧
      binNumber xmin ((xmax - xmin) / (n : ℚ)) v < (n : ℤ)) ↔
      (xmin - (xmax - xmin) / (n : ℚ) < v ∧ v < xmax) := by
  have hn0 : (0 : ℚ) < (n : ℚ) := by exact_mod_cast hn
  have hw : 0 < (xmax - xmin) / (n : ℚ) := div_pos (by linarith) hn0
  unfold binNumber
  rw [int32trunc_nonneg_iff, int32trunc_lt_iff _ _ hn]
  have e1 : (-1 : ℚ) < (v - xmin) / ((xmax - xmin) / (n : ℚ)) ↔
      xmin - (xmax - xmin) / (n : ℚ) < v := by
    rw [lt_div_iff₀ hw]
    constructor <;> intro <;> linarith
  have e2 : (v - xmin) / ((xmax - xmin) / (n : ℚ)) < (n : ℚ) ↔ v < xmax := by
    rw [div_lt_iff₀ hw]
    have hmul : (n : ℚ) * ((xmax - xmin) / (n : ℚ)) = xmax - xmin := by
      field_simp
    rw [hmul]
    constructor <;> intro <;> linarith
  exact and_congr e1 e2

/-! ### The guarded increment: shape, pointwise and sum characterisations -/

lemma length_bumpBin (nbins : ℕ) (h : List ℤ) (bn : ℤ) :
    (bumpBin nbins h bn).length = h.length := by
  unfold bumpBin
  split <;> simp

lemma length_foldl_histStep (xmin bw : ℚ) (nbins : ℕ) (l : List ℚ) (h : List ℤ) :
    (l.foldl (histStep xmin bw nbins) h).length = h.length := by
  induction l generalizing h with
  | nil => rfl
  | cons v t ih => rw [List.foldl_cons, ih]; exact length_bumpBin _ _ _

lemma getD_bumpBin (nbins : ℕ) (h : List ℤ) (bn : ℤ) (b : ℕ)
    (hlen : nbins = h.length) (hb : b < nbins) :
    (bumpBin nbins h bn).getD b 0 =
      h.getD b 0 + if bn = (b : ℤ) then 1 else 0 := by
  unfold bumpBin
  split
  next hg =>
    by_cases he : bn = (b : ℤ)
    · have ht : bn.toNat = b := by omega
      rw [ht]
      simp only [List.getD_eq_getElem?_getD,
        List.getElem?_set_self (show b < h.length by omega)]
      simp [he]
    · have ht : bn.toNat ≠ b := by omega
      simp only [List.getD_eq_getElem?_getD, List.getElem?_set_ne ht]
      simp [he]
  next hg =>
    have he : bn ≠ (b : ℤ) := by
      intro hcontra
      exact hg ⟨by omega, by omega⟩
    simp [he]

lemma getD_foldl_histStep (xmin bw : ℚ) (nbins : ℕ) (l : List ℚ) (h : List ℤ)
    (hlen : nbins = h.length) (b : ℕ) (hb : b < nbins) :
    (l.foldl (histStep xmin bw nbins) h).getD b 0 =
      h.getD b 0 +
        (l.countP (fun v => decide (binNumber xmin bw v = (b : ℤ))) : ℤ) := by
  induction l generalizing h with
  | nil => simp
  | cons v t ih =>
    rw [List.foldl_cons,
      ih (histStep xmin bw nbins h v) (by rw [hlen]; exact (length_bumpBin _ _ _).symm),
      histStep, getD_bumpBin _ _ _ _ hlen hb, List.countP_cons]
    by_cases he : binNumber xmin bw v = (b : ℤ) <;> simp [he] <;> push_cast <;> ring

lemma sum_set_getD (h : List ℤ) (i : ℕ) (hi : i < h.length) :
    (h.set i (h.getD i 0 + 1)).sum = h.sum + 1 := by
  induction h generalizing i with
  | nil => simp at hi
  | cons a t ih =>
    cases i with
    | zero => simp [List.set]; ring
    | succ j =>
      have hj : j < t.length := by simpa using hi
      have hs : (a :: t).set (j + 1) ((a :: t).getD (j + 1) 0 + 1) =
          a :: t.set j (t.getD j 0 + 1) := by
        simp [List.set]
      rw [hs, List.sum_cons, List.sum_cons, ih j hj]
      ring

lemma sum_bumpBin (nbins : ℕ) (h : List ℤ) (bn : ℤ) (hlen : nbins = h.length) :
    (bumpBin nbins h bn).sum =
      h.sum + if 0 ≤ bn ∧ bn < (nbins : ℤ) then 1 else 0 := by
  unfold bumpBin
  split
  next hg => rw [sum_set_getD _ _ (by omega)]
  next hg => simp

lemma sum_foldl_histStep (xmin bw : ℚ) (nbins : ℕ) (l : List ℚ) (h : List ℤ)
    (hlen : nbins = h.length) :
    (l.foldl (histStep xmin bw nbins) h).sum =
      h.sum + (l.countP (fun v =>
        decide (0 ≤ binNumber xmin bw v ∧ binNumber xmin bw v < (nbins : ℤ))) : ℤ) := by
  induction l generalizing h with
  | nil => simp
  | cons v t ih =>
    rw [List.foldl_cons,
      ih (histStep xmin bw nbins h v) (by rw [hlen]; exact (length_bumpBin _ _ _).symm),
      histStep, sum_bumpBin _ _ _ hlen, List.countP_cons]
    by_cases hg : 0 ≤ binNumber xmin bw v ∧ binNumber xmin bw v < (nbins : ℤ) <;>
      simp [hg] <;> push_cast <;> ring

/-! ### Commutativity of the guarded (atomic) increment -/

lemma bumpBin_comm (nbins : ℕ) (h : List ℤ) (a b : ℤ) :
    bumpBin nbins (bumpBin nbins h a) b = bumpBin nbins (bumpBin nbins h b) a := by
  by_cases hab : a = b
  · subst hab; rfl
  unfold bumpBin
  by_cases hga : 0 ≤ a ∧ a < (nbins : ℤ) <;>
    by_cases hgb : 0 ≤ b ∧ b < (nbins : ℤ)
  · have hne : a.toNat ≠ b.toNat := by omega
    simp only [if_pos hga, if_pos hgb]
    have g1 : ∀ v : ℤ, (h.set a.toNat v).getD b.toNat 0 = h.getD b.toNat 0 := by
      intro v
      simp only [List.getD_eq_getElem?_getD, List.getElem?_set_ne hne]
    have g2 : ∀ v : ℤ, (h.set b.toNat v).getD a.toNat 0 = h.getD a.toNat 0 := by
      intro v
      simp only [List.getD_eq_getElem?_getD, List.getElem?_set_ne (Ne.symm hne)]
    rw [g1, g2, List.set_comm _ _ _ hne]
  · simp only [if_pos hga, if_neg hgb]
  · simp only [if_neg hga, if_pos hgb]
  · simp only [if_neg hga, if_neg hgb]

lemma histStep_comm (xmin bw : ℚ) (nbins : ℕ) (h : List ℤ) (v w : ℚ) :
    histStep xmin bw nbins (histStep xmin bw nbins h v) w =
      histStep xmin bw nbins (histStep xmin bw nbins h w) v :=
  bumpBin_comm nbins h (binNumber xmin bw v) (binNumber xmin bw w)

/-- The fold of the guarded increments is invariant under reordering of the
samples: the increments commute (atomicity of the per-bin add). -/
lemma foldl_histStep_perm (xmin bw : ℚ) (nbins : ℕ) {l1 l2 : List ℚ}
    (hp : l1.Perm l2) (h : List ℤ) :
    l1.foldl (histStep xmin bw nbins) h = l2.foldl (histStep xmin bw nbins) h :=
  @List.Perm.foldl_eq _ _ _ _ _ ⟨fun hh v w => histStep_comm xmin bw nbins hh v w⟩ hp h

/-! ### The start/stride partition -/

lemma mem_pyRange {i start stop stride : ℕ} :
    i ∈ pyRange start stop stride ↔
      i < stop ∧ start ≤ i ∧ (i - start) % stride = 0 := by
  simp [pyRange, List.mem_filter, List.mem_range]

lemma pyRange_nodup (start stop stride : ℕ) : (pyRange start stop stride).Nodup :=
  (List.nodup_range stop).filter _

/-- A thread owning index `i` is the thread `i % W`. -/
lemma pyRange_worker_eq {M W k i : ℕ} (hk : k < W) (hi : i ∈ pyRange k M W) :
    k = i % W := by
  obtain ⟨-, hle, hmod⟩ := mem_pyRange.mp hi
  obtain ⟨q, hq⟩ := Nat.dvd_of_mod_eq_zero hmod
  have hi2 : i = k + W * q := by omega
  have hmod2 : i % W = (k + W * q) % W := by rw [← hi2]
  rw [Nat.add_mul_mod_self_left, Nat.mod_eq_of_lt hk] at hmod2
  omega

/-- Every index `i < M` is visited by the thread `i % W`. -/
lemma mem_pyRange_self {i M W : ℕ} (hi : i < M) :
    i ∈ pyRange (i % W) M W := by
  refine mem_pyRange.mpr ⟨hi, Nat.mod_le i W, ?_⟩
  have hdm := Nat.div_add_mod i W
  have h2 : i - i % W = W * (i / W) := by omega
  rw [h2]
  exact Nat.mul_mod_right W _

/-- A thread whose start offset is at or beyond the data length visits
nothing. -/
lemma pyRange_empty {k M W : ℕ} (hk : M ≤ k) : pyRange k M W = [] := by
  rw [List.eq_nil_iff_forall_not_mem]
  intro i hi
  have := mem_pyRange.mp hi
  omega

/-- The concatenation of all threads' index lists is a permutation of
`0, …, M - 1`. -/
lemma flatMap_pyRange_perm (M W : ℕ) (hW : 0 < W) :
    ((List.range W).flatMap (fun k => pyRange k M W)).Perm (List.range M) := by
  apply List.perm_of_nodup_nodup_toFinset_eq
  · rw [List.nodup_flatMap]
    refine ⟨fun k _ => pyRange_nodup k M W, ?_⟩
    refine (List.pairwise_lt_range W).imp_of_mem ?_
    intro a b ha hb hlt
    simp only [List.mem_range] at ha hb
    intro i hia hib
    have h1 := pyRange_worker_eq ha hia
    have h2 := pyRange_worker_eq hb hib
    omega
  · exact List.nodup_range M
  · ext i
    simp only [List.mem_toFinset, List.mem_flatMap, List.mem_range]
    constructor
    · rintro ⟨k, hk, hik⟩
      exact (mem_pyRange.mp hik).1
    · intro hi
      exact ⟨i % W, Nat.mod_lt i hW, mem_pyRange_self hi⟩

/-! ### Folds over concatenations, and recovering `x` from its indices -/

lemma foldl_flatMap_eq {α β γ : Type} (f : β → γ → β) (g : α → List γ)
    (l : List α) (b : β) :
    (l.flatMap g).foldl f b = l.foldl (fun acc a => (g a).foldl f acc) b := by
  induction l generalizing b with
  | nil => rfl
  | cons a t ih => rw [List.flatMap_cons, List.foldl_append, ih, List.foldl_cons]

lemma map_getD_range (x : List ℚ) :
    (List.range x.length).map (fun i => x.getD i 0) = x := by
  apply List.ext_get
  · simp
  · intro n h1 h2
    simp [List.get_eq_getElem, List.getElem_map, List.getElem_range,
      List.getD_eq_getElem?_getD, List.getElem?_eq_getElem h2]

/-! ### State-threading folds: the sample list is never written -/

lemma foldl_pair_fst {α β γ : Type} (f : α → β → γ → β) (l : List γ)
    (s : α × β) :
    (l.foldl (fun st c => (st.1, f st.1 st.2 c)) s).1 = s.1 := by
  induction l generalizing s with
  | nil => rfl
  | cons c t ih => exact ih (s.1, f s.1 s.2 c)

lemma foldl_pair_snd {α β γ : Type} (f : α → β → γ → β) (l : List γ)
    (s : α × β) :
    (l.foldl (fun st c => (st.1, f st.1 st.2 c)) s).2 = l.foldl (f s.1) s.2 := by
  induction l generalizing s with
  | nil => rfl
  | cons c t ih => exact ih (s.1, f s.1 s.2 c)

/-- All `W` threads together perform one guarded increment per sample, and
since the increments commute the combined effect equals the sequential loop
over `x`. -/
lemma threads_eq_seq (x : List ℚ) (xmin bw : ℚ) (nbins W : ℕ) (hW : 0 < W)
    (h : List ℤ) :
    (List.range W).foldl (fun hh k => cudaThread x xmin bw nbins k W hh) h
      = x.foldl (histStep xmin bw nbins) h := by
  calc (List.range W).foldl (fun hh k => cudaThread x xmin bw nbins k W hh) h
      = ((List.range W).flatMap (fun k => pyRange k x.length W)).foldl
          (fun hh i => histStep xmin bw nbins hh (x.getD i 0)) h := by
        rw [foldl_flatMap_eq]
        rfl
    _ = (((List.range W).flatMap (fun k => pyRange k x.length W)).map
          (fun i => x.getD i 0)).foldl (histStep xmin bw nbins) h := by
        rw [List.foldl_map]
    _ = ((List.range x.length).map (fun i => x.getD i 0)).foldl
          (histStep xmin bw nbins) h :=
        foldl_histStep_perm xmin bw nbins
          ((flatMap_pyRange_perm x.length W hW).map (fun i => x.getD i 0)) h
    _ = x.foldl (histStep xmin bw nbins) h := by rw [map_getD_range]

lemma cuda_eq_cpu (x : List ℚ) (xmin xmax : ℚ) (W : ℕ) (hW : 0 < W)
    (h : List ℤ) :
    cuda_histogram x xmin xmax W h = cpu_histogram x xmin xmax h :=
  threads_eq_seq x xmin ((xmax - xmin) / (h.length : ℚ)) h.length W hW h

lemma cpu_state_eq (xmin xmax : ℚ) (s : List ℚ × List ℤ) :
    cpu_histogram_state xmin xmax s = (s.1, cpu_histogram s.1 xmin xmax s.2) := by
  have h1 : (cpu_histogram_state xmin xmax s).1 = s.1 :=
    foldl_pair_fst
      (fun _ hh c => histStep xmin ((xmax - xmin) / (s.2.length : ℚ)) s.2.length hh c)
      s.1 s
  have h2 : (cpu_histogram_state xmin xmax s).2 = cpu_histogram s.1 xmin xmax s.2 :=
    foldl_pair_snd
      (fun _ hh c => histStep xmin ((xmax - xmin) / (s.2.length : ℚ)) s.2.length hh c)
      s.1 s
  exact Prod.ext h1 h2

lemma cuda_state_eq (xmin xmax : ℚ) (W : ℕ) (s : List ℚ × List ℤ) :
    cuda_histogram_state xmin xmax W s
      = (s.1, cuda_histogram s.1 xmin xmax W s.2) := by
  have hstep : (fun (st : List ℚ × List ℤ) (k : ℕ) =>
      (pyRange k st.1.length W).foldl
        (fun st2 i => (st2.1, histStep xmin ((xmax - xmin) / (s.2.length : ℚ))
          s.2.length st2.2 (st2.1.getD i 0))) st)
      = fun (st : List ℚ × List ℤ) (k : ℕ) =>
          (st.1, (pyRange k st.1.length W).foldl
            (fun hh i => histStep xmin ((xmax - xmin) / (s.2.length : ℚ))
              s.2.length hh (st.1.getD i 0)) st.2) := by
    funext st k
    have ha := foldl_pair_fst
        (fun (a : List ℚ) (hh : List ℤ) (i : ℕ) =>
          histStep xmin ((xmax - xmin) / (s.2.length : ℚ)) s.2.length hh (a.getD i 0))
        (pyRange k st.1.length W) st
    have hb := foldl_pair_snd
        (fun (a : List ℚ) (hh : List ℤ) (i : ℕ) =>
          histStep xmin ((xmax - xmin) / (s.2.length : ℚ)) s.2.length hh (a.getD i 0))
        (pyRange k st.1.length W) st
    exact Prod.ext ha hb
  have hun : cuda_histogram_state xmin xmax W s
      = (List.range W).foldl
          (fun (st : List ℚ × List ℤ) (k : ℕ) =>
            (pyRange k st.1.length W).foldl
              (fun st2 i => (st2.1, histStep xmin ((xmax - xmin) / (s.2.length : ℚ))
                s.2.length st2.2 (st2.1.getD i 0))) st) s := rfl
  rw [hun, hstep]
  have hf1 := foldl_pair_fst (fun a hh k => (pyRange k a.length W).foldl
      (fun h2 i => histStep xmin ((xmax - xmin) / (s.2.length : ℚ))
        s.2.length h2 (a.getD i 0)) hh) (List.range W) s
  have hf2 := foldl_pair_snd (fun a hh k => (pyRange k a.length W).foldl
      (fun h2 i => histStep xmin ((xmax - xmin) / (s.2.length : ℚ))
        s.2.length h2 (a.getD i 0)) hh) (List.range W) s
  exact Prod.ext hf1 hf2

lemma getD_replicate_zero (n j : ℕ) : (List.replicate n (0 : ℤ)).getD j 0 = 0 := by
  rw [List.getD_eq_getElem?_getD, List.getElem?_replicate]
  split <;> rfl

lemma cpu_histogram_single (v xmin xmax : ℚ) (n : ℕ) :
    cpu_histogram [v] xmin xmax (List.replicate n 0)
      = bumpBin n (List.replicate n 0)
          (binNumber xmin ((xmax - xmin) / (n : ℚ)) v) := by
  simp [cpu_histogram, histStep]

/-! ### Claims -/

/-- C1 (counterexample): the floor rule of the claim fails on the code.  With
`low = 0`, `high = 10`, `bin_count = 5` (so `bin_width = 2`) and `v = -1`, the
claimed index `floor((v - low)/bin_width) = -1` is negative, so the claim says
`v` is dropped; but `cpu_histogram` truncates toward zero (`np.int32`), gets
bin 0, and counts the sample. -/
theorem C1_floor_rule_fails :
    ⌊(((-1 : ℚ) - 0) / ((10 - 0) / (5 : ℚ)))⌋ < 0 ∧
      cpu_histogram [-1] 0 10 (List.replicate 5 0) = [1, 0, 0, 0, 0] := by
  constructor
  · norm_num
  · have h1 : ⌈(-(1/2) : ℚ)⌉ = 0 := by norm_num
    norm_num [cpu_histogram, histStep, bumpBin, binNumber, int32trunc, h1,
      List.replicate]

/-- C1 (amended): for every sample `v`, range `low < high` and `bin_count > 0`
the code computes the bin index as the truncation toward zero (`np.int32`) of
`(v - low)/bin_width` — not the floor — and `v` contributes exactly one
increment, to that bin, iff `low - bin_width < v < high`; values outside that
window are silently dropped (no error).  In particular values of
`(low - bin_width, low)` are counted in bin 0 rather than dropped. -/
theorem C1_truncated_bin_rule (v xmin xmax : ℚ) (n : ℕ) (hn : 0 < n)
    (hlh : xmin < xmax) :
    cpu_histogram [v] xmin xmax (List.replicate n 0) =
      if xmin - (xmax - xmin) / (n : ℚ) < v ∧ v < xmax
      then (List.replicate n (0 : ℤ)).set
        (binNumber xmin ((xmax - xmin) / (n : ℚ)) v).toNat 1
      else List.replicate n 0 := by
  rw [cpu_histogram_single, bumpBin]
  exact if_congr (binNumber_guard_iff xmin xmax n hn hlh v)
    (by rw [getD_replicate_zero, zero_add]) rfl

/-- Witness for `C1_truncated_bin_rule` at `v = -1`, `low = 0`, `high = 10`,
`bin_count = 5`. -/
theorem C1_truncated_bin_rule_witness :
    cpu_histogram [(-1 : ℚ)] 0 10 (List.replicate 5 0) =
      if (0 : ℚ) - (10 - 0) / (5 : ℚ) < -1 ∧ (-1 : ℚ) < 10
      then (List.replicate 5 (0 : ℤ)).set
        (binNumber 0 ((10 - 0) / (5 : ℚ)) (-1)).toNat 1
      else List.replicate 5 0 :=
  C1_truncated_bin_rule (-1) 0 10 5 (by norm_num) (by norm_num)

/-- C2 (counterexample): the code performs no input validation.  With
`low = 10 ≥ high = 0` the call raises nothing and does accumulate: sample `4`
lands in bin 3 (negative `bin_width = -2`), so a bin counter is modified,
contradicting the claimed fail-before-accumulation. -/
theorem C2_validation_fails :
    (0 : ℚ) ≤ 10 ∧
      cpu_histogram [4] 10 0 (List.replicate 5 0) = [0, 0, 0, 1, 0] ∧
      cpu_histogram [4] 10 0 (List.replicate 5 0) ≠ List.replicate 5 0 := by
  have hmain : cpu_histogram [4] 10 0 (List.replicate 5 0) = [0, 0, 0, 1, 0] := by
    norm_num [cpu_histogram, histStep, bumpBin, binNumber, int32trunc,
      List.replicate]
    decide
  exact ⟨by norm_num, hmain, by rw [hmain]; decide⟩

/-- C2 (amended): there is no `InvalidRangeError` or `InvalidBinCountError` in
the code: a call with `low ≥ high` returns normally and performs the ordinary
accumulation under the same truncated-bin rule, and the bin count (the length
of the caller-supplied output array) is never validated. -/
theorem C2_no_validation (x : List ℚ) (xmin xmax : ℚ) (h : List ℤ)
    (hinv : xmax ≤ xmin) :
    (cpu_histogram x xmin xmax h).length = h.length ∧
      ∀ b : ℕ, b < h.length →
        (cpu_histogram x xmin xmax h).getD b 0 =
          h.getD b 0 + (x.countP (fun v =>
            decide (binNumber xmin ((xmax - xmin) / (h.length : ℚ)) v
              = (b : ℤ))) : ℤ) :=
  ⟨length_foldl_histStep xmin ((xmax - xmin) / (h.length : ℚ)) h.length x h,
    fun b hb => getD_foldl_histStep xmin ((xmax - xmin) / (h.length : ℚ))
      h.length x h rfl b hb⟩

/-- Witness for `C2_no_validation` at the inverted range `low = 10`,
`high = 0`. -/
theorem C2_no_validation_witness :
    (cpu_histogram [4] 10 0 (List.replicate 5 0)).length
      = (List.replicate 5 (0 : ℤ)).length :=
  (C2_no_validation [4] 10 0 (List.replicate 5 0) (by norm_num)).1

/-- C3 (counterexample): equality of `sum counts` and `len samples` does not
imply that all samples lie in `[low, high)`: with `low = 0`, `high = 10`,
`bin_count = 5`, the single sample `-1` is outside `[0, 10)` yet is counted
(truncation toward zero places it in bin 0), so the sum equals the length. -/
theorem C3_equality_outside_range :
    (0 : ℚ) < 10 ∧ (0 : ℕ) < 5 ∧
      (cpu_histogram [-1] 0 10 (List.replicate 5 0)).sum
        = (([(-1 : ℚ)]).length : ℤ) ∧
      ¬ ((0 : ℚ) ≤ -1 ∧ (-1 : ℚ) < 10) := by
  refine ⟨by norm_num, by norm_num, ?_, by norm_num⟩
  have h1 : ⌈(-(1/2) : ℚ)⌉ = 0 := by norm_num
  norm_num [cpu_histogram, histStep, bumpBin, binNumber, int32trunc, h1,
    List.replicate]

/-- C3 (amended): for all valid inputs the sum of the counters is at most the
number of samples, and equality holds iff every sample lies in the window
`(low - bin_width, high)` — not the claimed `[low, high)`, because the
truncation toward zero also counts the values of `(low - bin_width, low)`. -/
theorem C3_sum_bound (x : List ℚ) (xmin xmax : ℚ) (n : ℕ) (hn : 0 < n)
    (hlh : xmin < xmax) :
    (cpu_histogram x xmin xmax (List.replicate n 0)).sum ≤ (x.length : ℤ) ∧
      ((cpu_histogram x xmin xmax (List.replicate n 0)).sum = (x.length : ℤ) ↔
        ∀ v ∈ x, xmin - (xmax - xmin) / (n : ℚ) < v ∧ v < xmax) := by
  have hun : cpu_histogram x xmin xmax (List.replicate n 0)
      = x.foldl (histStep xmin ((xmax - xmin) / (n : ℚ)) n)
          (List.replicate n 0) := by
    simp [cpu_histogram]
  have hsum := sum_foldl_histStep xmin ((xmax - xmin) / (n : ℚ)) n x
    (List.replicate n 0) (by simp)
  rw [hun, hsum]
  have hz : (List.replicate n (0 : ℤ)).sum = 0 := by simp
  rw [hz, zero_add]
  constructor
  · exact_mod_cast List.countP_le_length _
  · rw [Nat.cast_inj, List.countP_eq_length]
    constructor
    · intro hall v hv
      have h1 := hall v hv
      simp only [decide_eq_true_eq] at h1
      exact (binNumber_guard_iff xmin xmax n hn hlh v).mp h1
    · intro hall v hv
      simp only [decide_eq_true_eq]
      exact (binNumber_guard_iff xmin xmax n hn hlh v).mpr (hall v hv)

/-- Witness for `C3_sum_bound` at `samples = [1]`, `low = 0`, `high = 10`,
`bin_count = 5`. -/
theorem C3_sum_bound_witness :
    (cpu_histogram [(1 : ℚ)] 0 10 (List.replicate 5 0)).sum
      ≤ (([(1 : ℚ)]).length : ℤ) :=
  (C3_sum_bound [1] 0 10 5 (by norm_num) (by norm_num)).1

/-- C4: launching the strided kernel with any positive number of workers
produces exactly the counts of the sequential loop: the start/stride partition
visits every sample once, and the atomic increments commute, so the
accumulated result is the same function of the input. -/
theorem C4_worker_count_invariance (x : List ℚ) (xmin xmax : ℚ) (W : ℕ)
    (hW : 1 ≤ W) (h : List ℤ) :
    cuda_histogram x xmin xmax W h = cpu_histogram x xmin xmax h :=
  cuda_eq_cpu x xmin xmax W hW h

/-- Witness for `C4_worker_count_invariance` with 3 workers on 4 samples. -/
theorem C4_worker_count_invariance_witness :
    cuda_histogram [(1 : ℚ), 5, -1, 12] 0 10 3 (List.replicate 5 0)
      = cpu_histogram [(1 : ℚ), 5, -1, 12] 0 10 (List.replicate 5 0) :=
  C4_worker_count_invariance [(1 : ℚ), 5, -1, 12] 0 10 3 (by norm_num)
    (List.replicate 5 0)

/-- C5: the start/stride partition.  For every data length `M` and worker
count `W ≥ 1`: an index is below `M` iff exactly one worker visits it (the
index sets cover `{0, …, M-1}`), two distinct workers never share an index,
and a worker whose start offset is at or past `M` visits nothing (excess
workers when `W > M`). -/
theorem C5_start_stride_partition (M W : ℕ) (hW : 1 ≤ W) :
    (∀ i : ℕ, i < M ↔ ∃ k : ℕ, k < W ∧ i ∈ pyRange k M W) ∧
      (∀ k1 k2 i : ℕ, k1 < W → k2 < W → i ∈ pyRange k1 M W →
        i ∈ pyRange k2 M W → k1 = k2) ∧
      (∀ k : ℕ, M ≤ k → pyRange k M W = []) := by
  refine ⟨?_, ?_, fun k hk => pyRange_empty hk⟩
  · intro i
    constructor
    · intro hi
      exact ⟨i % W, Nat.mod_lt i hW, mem_pyRange_self hi⟩
    · rintro ⟨k, hk, hik⟩
      exact (mem_pyRange.mp hik).1
  · intro k1 k2 i h1 h2 hm1 hm2
    rw [pyRange_worker_eq h1 hm1, pyRange_worker_eq h2 hm2]

/-- Witness for `C5_start_stride_partition` with `M = 5`, `W = 2` at index 3. -/
theorem C5_start_stride_partition_witness :
    3 < 5 ↔ ∃ k : ℕ, k < 2 ∧ 3 ∈ pyRange k 5 2 :=
  (C5_start_stride_partition 5 2 (by norm_num)).1 3

/-- C6: for every valid range and bin count, a sample exactly equal to `low`
is counted in bin 0, and a sample exactly equal to `high` is not counted in
any bin (the counters are unchanged). -/
theorem C6_boundary (xmin xmax : ℚ) (n : ℕ) (hn : 0 < n) (hlh : xmin < xmax) :
    cpu_histogram [xmin] xmin xmax (List.replicate n 0) =
        (List.replicate n (0 : ℤ)).set 0 1 ∧
      cpu_histogram [xmax] xmin xmax (List.replicate n 0)
        = List.replicate n 0 := by
  have hb0 : binNumber xmin ((xmax - xmin) / (n : ℚ)) xmin = 0 := by
    unfold binNumber int32trunc
    norm_num
  have hbn : binNumber xmin ((xmax - xmin) / (n : ℚ)) xmax = (n : ℤ) := by
    have ha : xmax - xmin ≠ 0 := ne_of_gt (by linarith)
    have hn0 : (n : ℚ) ≠ 0 := by
      exact_mod_cast hn.ne'
    have hr : (xmax - xmin) / ((xmax - xmin) / (n : ℚ)) = (n : ℚ) := by
      field_simp
    unfold binNumber int32trunc
    rw [hr, if_pos (by positivity : (0 : ℚ) ≤ (n : ℚ))]
    exact Int.floor_natCast n
  constructor
  · rw [cpu_histogram_single, hb0, bumpBin]
    rw [if_pos ⟨le_refl (0 : ℤ), by exact_mod_cast hn⟩]
    simp [getD_replicate_zero]
  · rw [cpu_histogram_single, hbn, bumpBin]
    rw [if_neg (fun hcon => lt_irrefl _ hcon.2)]

/-- Witness for `C6_boundary` at `low = 0`, `high = 10`, `bin_count = 5`. -/
theorem C6_boundary_witness :
    cpu_histogram [(0 : ℚ)] 0 10 (List.replicate 5 0) =
        (List.replicate 5 (0 : ℤ)).set 0 1 ∧
      cpu_histogram [(10 : ℚ)] 0 10 (List.replicate 5 0)
        = List.replicate 5 0 :=
  C6_boundary 0 10 5 (by norm_num) (by norm_num)

/-- C7: with no samples, any valid range and a positive bin count, the
histogram leaves the zero-initialised counters at `bin_count` zeros and raises
no error (the loop body never runs). -/
theorem C7_empty_input (xmin xmax : ℚ) (n : ℕ) (hn : 0 < n)
    (hlh : xmin < xmax) :
    cpu_histogram [] xmin xmax (List.replicate n 0) = List.replicate n 0 := rfl

/-- Witness for `C7_empty_input`: the spec's Scenario 1
(`samples = []`, `low = 0`, `high = 10`, `bin_count = 5`). -/
theorem C7_empty_input_witness :
    cpu_histogram [] 0 10 (List.replicate 5 0) = List.replicate 5 0 :=
  C7_empty_input 0 10 5 (by norm_num) (by norm_num)

/-- C8: permuting the samples leaves the histogram unchanged: the result
depends only on the multiset of samples, because the guarded increments
commute. -/
theorem C8_permutation_invariance (x y : List ℚ) (xmin xmax : ℚ)
    (h : List ℤ) (hp : x.Perm y) :
    cpu_histogram x xmin xmax h = cpu_histogram y xmin xmax h :=
  foldl_histStep_perm xmin ((xmax - xmin) / (h.length : ℚ)) h.length hp h

/-- Witness for `C8_permutation_invariance` on the swap `[1, 2] ~ [2, 1]`. -/
theorem C8_permutation_invariance_witness :
    cpu_histogram [(1 : ℚ), 2] 0 10 (List.replicate 5 0)
      = cpu_histogram [(2 : ℚ), 1] 0 10 (List.replicate 5 0) :=
  C8_permutation_invariance [(1 : ℚ), 2] [(2 : ℚ), 1] 0 10
    (List.replicate 5 0) (List.Perm.swap 2 1 [])

/-- C9: neither routine ever writes the input sample list: threading the whole
state `(samples, counters)` through the loops, the samples component is
returned unchanged and the counters component is exactly the pure histogram
result — the output counters are the only mutated state. -/
theorem C9_samples_not_mutated (x : List ℚ) (xmin xmax : ℚ) (W : ℕ)
    (h : List ℤ) :
    (cpu_histogram_state xmin xmax (x, h)).1 = x ∧
      (cuda_histogram_state xmin xmax W (x, h)).1 = x ∧
      (cpu_histogram_state xmin xmax (x, h)).2 = cpu_histogram x xmin xmax h ∧
      (cuda_histogram_state xmin xmax W (x, h)).2
        = cuda_histogram x xmin xmax W h := by
  refine ⟨?_, ?_, ?_, ?_⟩
  · rw [cpu_state_eq]
  · rw [cuda_state_eq]
  · rw [cpu_state_eq]
  · rw [cuda_state_eq]

/-- C10: the accumulator is additive in the initial counters: the length is
preserved and every bin ends at its initial value plus the number of samples
whose truncated bin index is that bin — the function increments and never
resets, so an all-zero result needs a zero-initialised array, and running the
function twice adds the counts twice. -/
theorem C10_additive_in_initial_state (x : List ℚ) (xmin xmax : ℚ)
    (h : List ℤ) :
    (cpu_histogram x xmin xmax h).length = h.length ∧
      ∀ b : ℕ, b < h.length →
        (cpu_histogram x xmin xmax h).getD b 0 =
          h.getD b 0 + (x.countP (fun v =>
            decide (binNumber xmin ((xmax - xmin) / (h.length : ℚ)) v
              = (b : ℤ))) : ℤ) :=
  ⟨length_foldl_histStep xmin ((xmax - xmin) / (h.length : ℚ)) h.length x h,
    fun b hb => getD_foldl_histStep xmin ((xmax - xmin) / (h.length : ℚ))
      h.length x h rfl b hb⟩

/-- Witness for `C10_additive_in_initial_state` with the nonzero initial
counters `[3, 4]`. -/
theorem C10_additive_in_initial_state_witness :
    (cpu_histogram [(1 : ℚ)] 0 10 [3, 4]).getD 0 0 =
      (([3, 4] : List ℤ)).getD 0 0 + ((([(1 : ℚ)]).countP (fun v =>
        decide (binNumber 0 ((10 - 0) / ((([3, 4] : List ℤ)).length : ℚ)) v
          = (0 : ℤ)))) : ℤ) :=
  (C10_additive_in_initial_state [(1 : ℚ)] 0 10 [3, 4]).2 0 (by norm_num)

end Kernels
